import Mathlib

/-!
Verification development for the "decode-the-drawings" geometry pipeline.

The Python sources are shallowly embedded over exact arithmetic:
`numpy` float vectors become `Vec3` records over `ℝ`, image-space pixel
arithmetic is carried out over `ℚ`/`ℤ`/`ℕ`, masks and paths become lists,
and fallible `numpy` calls become `Except` values.  Each embedded
definition follows the corresponding function of the repository
(`vectors.py`, `smoothing.py`, `image_processing.py`, `script.py`).
-/

namespace Drawings

/-- Three-component real vector, modelling a `numpy` array of shape `(3,)`. -/
structure Vec3 where
  x : ℝ
  y : ℝ
  z : ℝ

theorem Vec3.ext3 (a b : Vec3) (hx : a.x = b.x) (hy : a.y = b.y) (hz : a.z = b.z) :
    a = b := by
  cases a; cases b; simp_all

/-- Componentwise addition of 3-vectors. -/
def add3 (a b : Vec3) : Vec3 := ⟨a.x + b.x, a.y + b.y, a.z + b.z⟩

/-- Componentwise subtraction of 3-vectors. -/
def sub3 (a b : Vec3) : Vec3 := ⟨a.x - b.x, a.y - b.y, a.z - b.z⟩

/-- Scalar multiple of a 3-vector. -/
def smul3 (c : ℝ) (a : Vec3) : Vec3 := ⟨c * a.x, c * a.y, c * a.z⟩

/-- The zero 3-vector. -/
def zero3 : Vec3 := ⟨0, 0, 0⟩

/-- Dot product of 3-vectors, modelling `np.dot`. -/
def dot3 (a b : Vec3) : ℝ := a.x * b.x + a.y * b.y + a.z * b.z

/-- Cross product of 3-vectors, modelling `np.cross` on shape-(3,) inputs. -/
def cross3 (a b : Vec3) : Vec3 :=
  ⟨a.y * b.z - a.z * b.y, a.z * b.x - a.x * b.z, a.x * b.y - a.y * b.x⟩

/-- Euclidean length of a 3-vector: `distance(v) = np.linalg.norm(v)`
from `vectors.py`. -/
noncomputable def distance (v : Vec3) : ℝ := Real.sqrt (dot3 v v)

/-- `normalize(v) = v / distance(v)` from `vectors.py`, componentwise
division by the Euclidean length. -/
noncomputable def normalize (v : Vec3) : Vec3 :=
  ⟨v.x / distance v, v.y / distance v, v.z / distance v⟩

/-- One row of `get_rays` from `vectors.py`: for a projected 2-D point
`p = (px, py)` the ray is `normalize (px - vw/2, -(py - vh/2), -f)`. -/
noncomputable def get_ray (p : ℝ × ℝ) (vw vh f : ℝ) : Vec3 :=
  normalize ⟨p.1 - vw / 2, -(p.2 - vh / 2), -f⟩

/-- `get_rays` from `vectors.py`: builds the `(N, 3)` array whose rows are
`(px - vw/2, -(py - vh/2), -f)` and normalizes each row. -/
noncomputable def get_rays (points : List (ℝ × ℝ)) (vw vh f : ℝ) : List Vec3 :=
  points.map (fun p => get_ray p vw vh f)

/-- `compute_ts` from `vectors.py`: with `c_ij = r_i · r_j`,
`u_ij = 1 - c_ij` and `sqrt_d = sqrt (2 * u12 * u23 * u13)`, returns
`side * (u23, u13, u12) / sqrt_d`. -/
noncomputable def compute_ts (r1 r2 r3 : Vec3) (side : ℝ) : ℝ × ℝ × ℝ :=
  let c12 := dot3 r1 r2
  let c23 := dot3 r2 r3
  let c13 := dot3 r1 r3
  let u12 := 1 - c12
  let u23 := 1 - c23
  let u13 := 1 - c13
  let sqrt_d := Real.sqrt (2 * u12 * u23 * u13)
  (side * u23 / sqrt_d, side * u13 / sqrt_d, side * u12 / sqrt_d)

/-- `get_orientation` from `vectors.py`:
`x_axis = normalize (b2 - b3)`, `z_axis = normalize (cross x_axis (b1 - b3))`,
`y_axis = normalize (cross z_axis x_axis)`. -/
noncomputable def get_orientation (b1 b2 b3 : Vec3) : Vec3 × Vec3 × Vec3 :=
  let x_axis := normalize (sub3 b2 b3)
  let z_axis := normalize (cross3 x_axis (sub3 b1 b3))
  let y_axis := normalize (cross3 z_axis x_axis)
  (x_axis, y_axis, z_axis)

/-- `distance_from_area` from `vectors.py`:
`D = R / sqrt (1 - (1 - 2 A)^2)`. -/
noncomputable def distance_from_area (A R : ℝ) : ℝ :=
  R / Real.sqrt (1 - (1 - 2 * A) ^ 2)

/-- Modelled from the spec: the ideal pinhole projection of a 3-D point with
`P.z < 0` onto the image plane, the inverse of the ray construction of
`get_rays` (spec section 4.3).  The repository has no scalar projection
function; this definition is only used to state the round-trip claims. -/
noncomputable def project (P : Vec3) (f w h : ℝ) : ℝ × ℝ :=
  (w / 2 - f * P.x / P.z, h / 2 + f * P.y / P.z)

/-- Insert an element into an already sorted list, keeping it sorted. -/
def insort {α : Type} [LinearOrder α] (a : α) : List α → List α
  | [] => [a]
  | b :: l => if a ≤ b then a :: b :: l else b :: insort a l

/-- Sort a list in nondecreasing order (insertion sort).  Models the
sorting performed internally by `np.median`. -/
def sortList {α : Type} [LinearOrder α] (l : List α) : List α :=
  l.foldr insort []

/-- Scalar `np.median`: the middle element of the sorted data for odd
length, the mean of the two middle elements for even length.  (`np.median`
of an empty array is NaN; this model returns the junk value `0` there and
is never used on empty input.) -/
def npMedian {α : Type} [LinearOrderedField α] (l : List α) : α :=
  let s := sortList l
  let n := l.length
  if n % 2 = 1 then s.getD (n / 2) 0
  else (s.getD (n / 2 - 1) 0 + s.getD (n / 2) 0) / 2

/-- `np.median(path, axis=0)` for a list of 2-D points: the componentwise
median. -/
def npMedianPoint {α : Type} [LinearOrderedField α] (l : List (α × α)) : α × α :=
  (npMedian (l.map Prod.fst), npMedian (l.map Prod.snd))

/-- `median_line_smoothing` from `smoothing.py`: empty input gives `[]`;
if `len path ≤ smoothness` the single median of the whole path; otherwise
the medians of the windows `path[i : i+smoothness]` for
`i ∈ range (len path - smoothness)`. -/
def median_line_smoothing {α : Type} [LinearOrderedField α]
    (path : List (α × α)) (smoothness : ℕ) : List (α × α) :=
  if path.length = 0 then []
  else if path.length ≤ smoothness then [npMedianPoint path]
  else (List.range (path.length - smoothness)).map
    (fun i => npMedianPoint ((path.drop i).take smoothness))

/-- Per-pixel mean intensity across the three channels:
`frame.sum(axis=2) * (1.0 / 3.0)` in `threshold` of `image_processing.py`. -/
def pixel_mean (pix : Fin 3 → ℕ) : ℚ :=
  ((pix 0 : ℚ) + (pix 1 : ℚ) + (pix 2 : ℚ)) / 3

/-- Conversion of the per-pixel threshold map to the frame dtype
(`.astype(frame.dtype)` with `uint8` video frames): the C float-to-integer
cast truncates toward zero and wraps modulo `2^8`.  The threshold values in
this development are nonnegative, where truncation toward zero is `⌊·⌋`. -/
def cast_u8 (q : ℚ) : ℤ := ⌊q⌋ % 256

/-- `threshold` from `image_processing.py` over a `(width, height, 3)` frame
of `uint8` intensities: per pixel, the threshold map is
`max (avg * inv_saturation_threshold) lightness_threshold` cast to the
frame dtype, and channel `c` is on iff its value strictly exceeds it. -/
def threshold (frame : ℕ → ℕ → Fin 3 → ℕ)
    (inv_saturation_threshold lightness_threshold : ℚ) :
    ℕ → ℕ → Fin 3 → Bool :=
  fun i j c =>
    let avg := pixel_mean (frame i j)
    let per_pixel_thresh :=
      cast_u8 (max (avg * inv_saturation_threshold) lightness_threshold)
    decide ((frame i j c : ℤ) > per_pixel_thresh)

/-- `np.round` for rationals: round half to even (banker's rounding). -/
def roundHE (q : ℚ) : ℤ :=
  let f := ⌊q⌋
  let r := q - (f : ℚ)
  if r < 1 / 2 then f
  else if 1 / 2 < r then f + 1
  else if f % 2 = 0 then f else f + 1

/-- Boolean-mask indexing `arr[mask]` of numpy: keep the entries of `l`
whose mask bit is `true`. -/
def select {α : Type} (l : List α) (mask : List Bool) : List α :=
  (l.zip mask).filterMap (fun p => if p.2 then some p.1 else none)

/-- `filter_line` from `image_processing.py`: if `p1 = p2` return all
pixels; if `dy ≤ dx` keep the pixels whose rounded interpolated `y` at
their `x` matches; otherwise keep those whose rounded interpolated `x` at
their `y` matches.  The divisions are numpy float divisions; this exact
model is faithful whenever the used denominator is nonzero. -/
def filter_line (p1 p2 : ℚ × ℚ) (nonzeros : List (ℤ × ℤ)) : List (ℤ × ℤ) :=
  let dx := p2.1 - p1.1
  let dy := p2.2 - p1.2
  if dx = 0 ∧ dy = 0 then nonzeros
  else if dy ≤ dx then
    let slope := dy / dx
    let ys := nonzeros.map (fun q => p1.2 + slope * ((q.1 : ℚ) - p1.1))
    select nonzeros (List.zipWith (fun yv (q : ℤ × ℤ) => decide (roundHE yv = q.2)) ys nonzeros)
  else
    let inv_slope := dx / dy
    let xs := nonzeros.map (fun q => p1.1 + inv_slope * ((q.2 : ℚ) - p1.2))
    select nonzeros (List.zipWith (fun xv (q : ℤ × ℤ) => decide (roundHE xv = q.1)) xs nonzeros)

/-- The denominator of the division actually performed by `filter_line`:
`dx` in the `dy ≤ dx` branch, `dy` otherwise (`1` standing for the
division-free `p1 = p2` branch). -/
def filter_line_denom (p1 p2 : ℚ × ℚ) : ℚ :=
  let dx := p2.1 - p1.1
  let dy := p2.2 - p1.2
  if dx = 0 ∧ dy = 0 then 1
  else if dy ≤ dx then dx
  else dy

/-- Length of the ray from the optical center to the pixel `p`:
`l = sqrt ((x - cx)^2 + (y - cy)^2 + f^2)` from `area_fraction_image`. -/
noncomputable def ray_length (cx cy f : ℝ) (p : ℕ × ℕ) : ℝ :=
  Real.sqrt (((p.1 : ℝ) - cx) ^ 2 + ((p.2 : ℝ) - cy) ^ 2 + f ^ 2)

/-- `area_fraction_image` from `vectors.py` with the default pixel size
`dx = dy = 1`: a `(w, h)`-shaped table whose entry at `p` is
`(f / l^3) / (4 * π)`, represented as the pair of its shape and its
entries. -/
noncomputable def area_fraction_image (w h : ℕ) (cx cy f : ℝ) :
    (ℕ × ℕ) × ((ℕ × ℕ) → ℝ) :=
  ((w, h), fun p => (f / ray_length cx cy f p ^ 3) / (4 * Real.pi))

/-- The module-level caches of `image_processing.py` used by
`get_all_balls_weighted`: `PIXEL_AREA_CACHE`, `PIXEL_WEIGHT_CACHE` and
`F_CACHE`.  A cached numpy array is modelled by its shape paired with its
entries. -/
structure WeightedCaches where
  pixel_area : Option ((ℕ × ℕ) × ((ℕ × ℕ) → ℝ))
  pixel_weight : Option ((ℕ × ℕ) × ((ℕ × ℕ) → ℝ))
  f_cache : Option ℝ

open Classical in
/-- The cache-refresh step at the top of `get_all_balls_weighted`: rebuild
the area and weight tables iff `PIXEL_AREA_CACHE is None or
PIXEL_AREA_CACHE.shape != (w, h) or F_CACHE != f`. -/
noncomputable def update_weighted_caches (s : WeightedCaches) (w h : ℕ) (f : ℝ) :
    WeightedCaches :=
  if s.pixel_area = none ∨ s.pixel_area.map Prod.fst ≠ some (w, h) ∨
      s.f_cache ≠ some f then
    let cx := (w : ℝ) / 2
    let cy := (h : ℝ) / 2
    let area := area_fraction_image w h cx cy f
    { pixel_area := some area
      pixel_weight := some ((w, h), fun p => area.2 p / ray_length cx cy f p)
      f_cache := some f }
  else s

open Classical in
/-- The `DISTANCE_CACHE` refresh step at the top of `get_tangential_points`:
rebuild the squared-distance-from-principal-point table iff
`DISTANCE_CACHE is None or DISTANCE_CACHE.shape != threshold_array.shape[:2]`.
The principal point is `shape // 2` (integer division). -/
noncomputable def update_distance_cache
    (s : Option ((ℕ × ℕ) × ((ℕ × ℕ) → ℤ))) (w h : ℕ) :
    Option ((ℕ × ℕ) × ((ℕ × ℕ) → ℤ)) :=
  if s = none ∨ s.map Prod.fst ≠ some (w, h) then
    some ((w, h), fun p =>
      ((p.1 : ℤ) - (w : ℤ) / 2) ^ 2 + ((p.2 : ℤ) - (h : ℤ) / 2) ^ 2)
  else s

/-- Exceptions raised by the numpy calls modelled in this development. -/
inductive PyErr where
  | zeroDivisionError : PyErr
  | axisError : PyErr
deriving DecidableEq

/-- A thresholded frame: a `(width, height, 3)` boolean array, row-major. -/
abbrev Mask := List (List (Fin 3 → Bool))

/-- `np.nonzero (threshold_array[:, :, c])`: the coordinates of the on
pixels of channel `c`, in row-major order. -/
def onPixels (m : Mask) (c : Fin 3) : List (ℕ × ℕ) :=
  (m.enum.map (fun row =>
    row.2.enum.filterMap (fun q => if q.2 c then some (row.1, q.1) else none))).flatten

open Classical in
/-- `np.average(vals, weights)`: raises `ZeroDivisionError` when the
weights sum to zero (in particular on empty input), else the weighted
mean. -/
noncomputable def np_average (vals weights : List ℝ) : Except PyErr ℝ :=
  if weights.sum = 0 then .error .zeroDivisionError
  else .ok ((List.zipWith (fun a b => a * b) vals weights).sum / weights.sum)

/-- The entries of `PIXEL_AREA_CACHE` for the shape of the mask `m`:
`area_fraction_image w h cx cy f` with `(w, h) = m.shape[:2]` and the
principal point `cx = w / 2`, `cy = h / 2`. -/
noncomputable def ball_area (m : Mask) (f : ℝ) : (ℕ × ℕ) → ℝ :=
  (area_fraction_image m.length (m.getD 0 []).length
    ((m.length : ℝ) / 2) (((m.getD 0 []).length : ℝ) / 2) f).2

/-- The `PIXEL_WEIGHT_CACHE` values (`PIXEL_AREA / ray_length`) at the on
pixels of channel `c`. -/
noncomputable def ball_weights (m : Mask) (f : ℝ) (c : Fin 3) : List ℝ :=
  (onPixels m c).map (fun q =>
    ball_area m f q / ray_length ((m.length : ℝ) / 2)
      (((m.getD 0 []).length : ℝ) / 2) f q)

/-- The per-channel body of `get_all_balls_weighted` from
`image_processing.py`: weighted centroid of the on pixels (weights
`PIXEL_WEIGHT = PIXEL_AREA / ray_length`), and total fractional area (sum
of `PIXEL_AREA` over the on pixels).  An exception from `np.average`
propagates. -/
noncomputable def measure_ball (m : Mask) (f : ℝ) (c : Fin 3) :
    Except PyErr ((ℝ × ℝ) × ℝ) :=
  match np_average ((onPixels m c).map (fun q => (q.1 : ℝ))) (ball_weights m f c) with
  | .error e => .error e
  | .ok mx =>
    match np_average ((onPixels m c).map (fun q => (q.2 : ℝ))) (ball_weights m f c) with
    | .error e => .error e
    | .ok my => .ok ((mx, my), ((onPixels m c).map (ball_area m f)).sum)

/-- `get_all_balls_weighted` from `image_processing.py`: the three
per-channel weighted centroids (the `pos` array, pixel coordinates of
shape `(3, 2)`) and the three fractional areas; the channels are
processed in order and an exception propagates. -/
noncomputable def get_all_balls_weighted (m : Mask) (f : ℝ) :
    Except PyErr ((Fin 3 → ℝ × ℝ) × (Fin 3 → ℝ)) :=
  match measure_ball m f 0 with
  | .error e => .error e
  | .ok b0 =>
    match measure_ball m f 1 with
    | .error e => .error e
    | .ok b1 =>
      match measure_ball m f 2 with
      | .error e => .error e
      | .ok b2 =>
        .ok (fun i => match i with | 0 => b0.1 | 1 => b1.1 | 2 => b2.1,
             fun i => match i with | 0 => b0.2 | 1 => b1.2 | 2 => b2.2)

/-- Componentwise difference of 2-D points. -/
def sub2 (a b : ℝ × ℝ) : ℝ × ℝ := (a.1 - b.1, a.2 - b.2)

/-- `np.cross` on two 2-D vectors: the scalar `z`-component of the
implied 3-D cross product. -/
def cross2 (a b : ℝ × ℝ) : ℝ := a.1 * b.2 - a.2 * b.1

/-- `normalize` applied to a 2-D vector. -/
noncomputable def normalize2 (a : ℝ × ℝ) : ℝ × ℝ :=
  (a.1 / Real.sqrt (a.1 ^ 2 + a.2 ^ 2), a.2 / Real.sqrt (a.1 ^ 2 + a.2 ^ 2))

/-- `normalize` applied to a 0-dimensional array (a scalar): division by
its own absolute value. -/
noncomputable def normalize0d (s : ℝ) : ℝ := s / |s|

/-- `get_orientation` as dynamically executed by the
`WEIGHTED_PIXELS_ELLIPSE_CORRECTION` configuration of `script.py`
(the default): `ball_rays` there is the `(3, 2)` array of weighted pixel
centroids, so `get_orientation` receives 2-D points.  `x_axis` is then a
2-vector, `np.cross(x_axis, b1 - b3)` is a 0-d scalar, and the subsequent
`np.cross(z_axis, x_axis)` with a 0-dimensional argument raises
`AxisError`: no orientation value is ever produced. -/
noncomputable def get_orientation_2d (b1 b2 b3 : ℝ × ℝ) : Except PyErr Empty :=
  let x_axis := normalize2 (sub2 b2 b3)
  let _z_axis := normalize0d (cross2 x_axis (sub2 b1 b3))
  .error .axisError

/-- `DST_CALIB_CONSTANT = [1, 0.99, 1]` from `script.py`. -/
noncomputable def dst_calib : Fin 3 → ℝ :=
  fun i => match i with | 0 => 1 | 1 => 99 / 100 | 2 => 1

/-- Row `i` of `ball_actual_pos = ball_rays * scale_factors[:, np.newaxis]`
in the default configuration of `script.py`: the measured centroid row
scaled by `scale_factors = distance_from_area(A, BALL_RADIUS) *
DST_CALIB_CONSTANT` with `BALL_RADIUS = 3`. -/
noncomputable def scaled_ball (meas : (Fin 3 → ℝ × ℝ) × (Fin 3 → ℝ))
    (i : Fin 3) : ℝ × ℝ :=
  (distance_from_area (meas.2 i) 3 * dst_calib i * (meas.1 i).1,
   distance_from_area (meas.2 i) 3 * dst_calib i * (meas.1 i).2)

/-- One iteration of the computing branch of the main loop of `script.py`
in its default configuration (`WEIGHTED_PIXELS_ELLIPSE_CORRECTION = True`,
`SMOOTHING_CONSTANT = 1`, `BALL_RADIUS = 3`), restricted to its effect on
the path-segment list.  With the pen down the frame is measured with
`get_all_balls_weighted`, scale factors come from `distance_from_area`,
and the orientation step follows; any uncaught exception surfaces as
`Except.error` (the main loop only catches `StopIteration`).  With the pen
up, a nonempty open segment is smoothed in place and a fresh one is
opened. -/
noncomputable def step_computing (pen_down : Bool) (m : Mask) (f : ℝ)
    (paths : List (List (ℝ × ℝ))) : Except PyErr (List (List (ℝ × ℝ))) :=
  if pen_down then
    match get_all_balls_weighted m f with
    | .error e => .error e
    | .ok meas =>
      match get_orientation_2d (scaled_ball meas 0) (scaled_ball meas 1)
          (scaled_ball meas 2) with
      | .error e => .error e
      | .ok o => o.elim
  else
    if 0 < (paths.getLastD []).length then
      .ok (paths.dropLast ++ [median_line_smoothing (paths.getLastD []) 1, []])
    else
      .ok paths

/-! Shared lemmas about the vector operations. -/

theorem dot3_comm (a b : Vec3) : dot3 a b = dot3 b a := by
  unfold dot3; ring

theorem dot3_self_nonneg (v : Vec3) : 0 ≤ dot3 v v := by
  unfold dot3; nlinarith [mul_self_nonneg v.x, mul_self_nonneg v.y, mul_self_nonneg v.z]

theorem dot3_self_eq_zero_iff (v : Vec3) : dot3 v v = 0 ↔ v = zero3 := by
  constructor
  · intro h
    unfold dot3 at h
    have hx : v.x = 0 := by nlinarith [mul_self_nonneg v.x, mul_self_nonneg v.y, mul_self_nonneg v.z]
    have hy : v.y = 0 := by nlinarith [mul_self_nonneg v.x, mul_self_nonneg v.y, mul_self_nonneg v.z]
    have hz : v.z = 0 := by nlinarith [mul_self_nonneg v.x, mul_self_nonneg v.y, mul_self_nonneg v.z]
    exact Vec3.ext3 _ _ hx hy hz
  · intro h; subst h; unfold dot3 zero3; norm_num

theorem distance_nonneg (v : Vec3) : 0 ≤ distance v := Real.sqrt_nonneg _

theorem distance_sq (v : Vec3) : distance v ^ 2 = dot3 v v := by
  unfold distance; exact Real.sq_sqrt (dot3_self_nonneg v)

theorem distance_pos (v : Vec3) (h : v ≠ zero3) : 0 < distance v := by
  unfold distance
  refine Real.sqrt_pos.mpr ?_
  rcases lt_or_eq_of_le (dot3_self_nonneg v) with h1 | h1
  · exact h1
  · exact absurd ((dot3_self_eq_zero_iff v).mp h1.symm) h

theorem normalize_eq_smul (v : Vec3) : normalize v = smul3 (distance v)⁻¹ v := by
  unfold normalize smul3
  apply Vec3.ext3 <;> simp <;> ring

theorem dot3_smul_left (c : ℝ) (a b : Vec3) : dot3 (smul3 c a) b = c * dot3 a b := by
  unfold dot3 smul3; simp; ring

theorem dot3_smul_right (c : ℝ) (a b : Vec3) : dot3 a (smul3 c b) = c * dot3 a b := by
  unfold dot3 smul3; simp; ring

theorem dot3_normalize_normalize (a b : Vec3) :
    dot3 (normalize a) (normalize b) = dot3 a b / (distance a * distance b) := by
  rw [normalize_eq_smul, normalize_eq_smul, dot3_smul_left, dot3_smul_right]
  rw [div_eq_mul_inv, mul_inv]
  ring

theorem distance_normalize (v : Vec3) (h : v ≠ zero3) : distance (normalize v) = 1 := by
  have hd : 0 < distance v := distance_pos v h
  have h1 : dot3 (normalize v) (normalize v) = 1 := by
    rw [normalize_eq_smul, dot3_smul_left, dot3_smul_right, ← distance_sq]
    field_simp
    ring
  unfold distance
  rw [h1, Real.sqrt_one]

theorem cross3_smul_left (c : ℝ) (a b : Vec3) :
    cross3 (smul3 c a) b = smul3 c (cross3 a b) := by
  unfold cross3 smul3
  apply Vec3.ext3 <;> simp <;> ring

theorem dot3_cross3_self_left (a b : Vec3) : dot3 a (cross3 a b) = 0 := by
  unfold dot3 cross3; simp; ring

theorem dot3_cross3_self_right (a b : Vec3) : dot3 b (cross3 a b) = 0 := by
  unfold dot3 cross3; simp; ring

theorem dot3_cross3_self_sandwich (a b : Vec3) : dot3 a (cross3 b a) = 0 := by
  unfold dot3 cross3; simp; ring

theorem cross3_lagrange (a b : Vec3) :
    dot3 (cross3 a b) (cross3 a b) = dot3 a a * dot3 b b - dot3 a b ^ 2 := by
  unfold dot3 cross3; simp; ring

theorem cross3_triple (a b : Vec3) :
    cross3 a (cross3 b a) = sub3 (smul3 (dot3 a a) b) (smul3 (dot3 a b) a) := by
  unfold cross3 smul3 sub3 dot3
  apply Vec3.ext3 <;> simp <;> ring

theorem smul3_ne_zero (c : ℝ) (v : Vec3) (hc : c ≠ 0) (hv : v ≠ zero3) :
    smul3 c v ≠ zero3 := by
  intro h
  apply hv
  have hx := congrArg Vec3.x h
  have hy := congrArg Vec3.y h
  have hz := congrArg Vec3.z h
  simp [smul3, zero3] at hx hy hz
  exact Vec3.ext3 _ _ (by simp [zero3]; tauto) (by simp [zero3]; tauto) (by simp [zero3]; tauto)

/-! Claim C7: solid-angle inversion round trip. -/

/-- C7: for every sphere radius `R > 0` and distance `D > R`,
`distance_from_area` applied to the fractional area
`A = (1 - cos θ) / 2` with `sin θ = R / D` (that is,
`A = (1 - sqrt (1 - (R/D)^2)) / 2`) returns exactly `D`, via
`D = R / sqrt (1 - (1 - 2 A)^2)`. -/
theorem C7_distance_from_area_round_trip (R D : ℝ) (hR : 0 < R) (hD : R < D) :
    distance_from_area ((1 - Real.sqrt (1 - (R / D) ^ 2)) / 2) R = D := by
  have hD0 : 0 < D := hR.trans hD
  have hRD0 : 0 < R / D := div_pos hR hD0
  have hRD1 : R / D < 1 := (div_lt_one hD0).mpr hD
  have h1 : (0:ℝ) ≤ 1 - (R / D) ^ 2 := by nlinarith
  unfold distance_from_area
  have h2 : 1 - 2 * ((1 - Real.sqrt (1 - (R / D) ^ 2)) / 2)
      = Real.sqrt (1 - (R / D) ^ 2) := by ring
  rw [h2, Real.sq_sqrt h1]
  have h3 : 1 - (1 - (R / D) ^ 2) = (R / D) ^ 2 := by ring
  rw [h3, Real.sqrt_sq hRD0.le]
  field_simp

/-- C7 witness: `R = 3`, `D = 5`. -/
theorem C7_witness :
    (0:ℝ) < 3 ∧ (3:ℝ) < 5 ∧
      distance_from_area ((1 - Real.sqrt (1 - ((3:ℝ) / 5) ^ 2)) / 2) 3 = 5 :=
  ⟨by norm_num, by norm_num,
    C7_distance_from_area_round_trip 3 5 (by norm_num) (by norm_num)⟩

/-! Claim C10: translation invariance of the orientation frame. -/

/-- C10: for every translation `t` and every non-collinear triple
`(b1, b2, b3)`, `get_orientation (b1+t) (b2+t) (b3+t) =
get_orientation b1 b2 b3`: the axes depend only on the differences of the
marker positions. -/
theorem C10_get_orientation_translation_invariant (t b1 b2 b3 : Vec3)
    (hnc : cross3 (sub3 b2 b3) (sub3 b1 b3) ≠ zero3) :
    get_orientation (add3 b1 t) (add3 b2 t) (add3 b3 t) =
      get_orientation b1 b2 b3 := by
  have h1 : sub3 (add3 b2 t) (add3 b3 t) = sub3 b2 b3 := by
    apply Vec3.ext3 <;> simp [sub3, add3]
  have h2 : sub3 (add3 b1 t) (add3 b3 t) = sub3 b1 b3 := by
    apply Vec3.ext3 <;> simp [sub3, add3]
  unfold get_orientation
  rw [h1, h2]

/-- C10 witness: `b1 = (0,1,0)`, `b2 = (1,0,0)`, `b3 = (0,0,0)`,
`t = (2,3,4)`. -/
theorem C10_witness :
    cross3 (sub3 ⟨1, 0, 0⟩ ⟨0, 0, 0⟩) (sub3 ⟨0, 1, 0⟩ ⟨0, 0, 0⟩) ≠ zero3 ∧
      get_orientation (add3 ⟨0, 1, 0⟩ ⟨2, 3, 4⟩) (add3 ⟨1, 0, 0⟩ ⟨2, 3, 4⟩)
          (add3 ⟨0, 0, 0⟩ ⟨2, 3, 4⟩) =
        get_orientation ⟨0, 1, 0⟩ ⟨1, 0, 0⟩ ⟨0, 0, 0⟩ := by
  have hnc : cross3 (sub3 (⟨1, 0, 0⟩ : Vec3) ⟨0, 0, 0⟩)
      (sub3 (⟨0, 1, 0⟩ : Vec3) ⟨0, 0, 0⟩) ≠ zero3 := by
    intro h
    have := congrArg Vec3.z h
    simp [cross3, sub3, zero3] at this
  exact ⟨hnc, C10_get_orientation_translation_invariant ⟨2, 3, 4⟩ _ _ _ hnc⟩

/-! Claim C6: ray-casting postcondition. -/

/-- C6: for every list of 2-D pixel points, viewport size and focal length
`f > 0`, `get_rays` maps each point `p` to
`normalize (p.1 - vw/2, -(p.2 - vh/2), -f)`, and every resulting row is a
unit-length vector with strictly negative `z`-component. -/
theorem C6_get_rays_unit_negative_z (points : List (ℝ × ℝ)) (vw vh f : ℝ)
    (hpts : points ≠ []) (hf : 0 < f) :
    get_rays points vw vh f =
      points.map (fun p => normalize ⟨p.1 - vw / 2, -(p.2 - vh / 2), -f⟩) ∧
    ∀ r ∈ get_rays points vw vh f, distance r = 1 ∧ r.z < 0 := by
  constructor
  · rfl
  · intro r hr
    unfold get_rays at hr
    rcases List.mem_map.mp hr with ⟨p, hp, hrp⟩
    subst hrp
    unfold get_ray
    set v : Vec3 := ⟨p.1 - vw / 2, -(p.2 - vh / 2), -f⟩ with hv
    have hvz : v.z = -f := rfl
    have hvne : v ≠ zero3 := by
      intro h
      have := congrArg Vec3.z h
      rw [hvz] at this
      simp [zero3] at this
      exact absurd this (by linarith)
    refine ⟨distance_normalize v hvne, ?_⟩
    have hd : 0 < distance v := distance_pos v hvne
    show v.z / distance v < 0
    rw [hvz]
    exact div_neg_of_neg_of_pos (by linarith) hd

/-- C6 witness: the single point `(0, 0)` with viewport `2 × 2` and focal
length `1`. -/
theorem C6_witness :
    ([((0:ℝ), (0:ℝ))] : List (ℝ × ℝ)) ≠ [] ∧ (0:ℝ) < 1 ∧
      (get_rays [((0:ℝ), (0:ℝ))] 2 2 1 =
        [((0:ℝ), (0:ℝ))].map (fun p => normalize ⟨p.1 - 2 / 2, -(p.2 - 2 / 2), -1⟩) ∧
      ∀ r ∈ get_rays [((0:ℝ), (0:ℝ))] 2 2 1, distance r = 1 ∧ r.z < 0) :=
  ⟨by simp, by norm_num,
    C6_get_rays_unit_negative_z [((0:ℝ), (0:ℝ))] 2 2 1 (by simp) (by norm_num)⟩

/-! Claim C5: orthonormality of the orientation frame. -/

theorem cross3_zero_left (b : Vec3) : cross3 zero3 b = zero3 := by
  unfold cross3 zero3
  apply Vec3.ext3 <;> simp

/-- C5: for every non-collinear triple `(b1, b2, b3)`, `get_orientation`
returns `x = normalize (b2 - b3)`, `z = normalize (cross x (b1 - b3))`,
`y = normalize (cross z x)`, three mutually orthogonal (`|dot| < 1e-9`)
unit vectors forming a right-handed frame (`cross x y = z`). -/
theorem C5_get_orientation_orthonormal (b1 b2 b3 x y z : Vec3)
    (hnc : cross3 (sub3 b2 b3) (sub3 b1 b3) ≠ zero3)
    (ho : get_orientation b1 b2 b3 = (x, y, z)) :
    x = normalize (sub3 b2 b3) ∧
    z = normalize (cross3 x (sub3 b1 b3)) ∧
    y = normalize (cross3 z x) ∧
    distance x = 1 ∧ distance y = 1 ∧ distance z = 1 ∧
    |dot3 x y| < 1 / 1000000000 ∧ |dot3 x z| < 1 / 1000000000 ∧
    |dot3 y z| < 1 / 1000000000 ∧
    cross3 x y = z := by
  have hs : sub3 b2 b3 ≠ zero3 := by
    intro h
    rw [h, cross3_zero_left] at hnc
    exact hnc rfl
  have hx : x = normalize (sub3 b2 b3) := by
    have := congrArg Prod.fst ho
    simpa [get_orientation] using this.symm
  have hz : z = normalize (cross3 x (sub3 b1 b3)) := by
    have := congrArg (fun p => p.2.2) ho
    simp [get_orientation] at this
    rw [← this, hx]
  have hy : y = normalize (cross3 z x) := by
    have := congrArg (fun p => p.2.1) ho
    simp [get_orientation] at this
    rw [← this, hx, hz, hx]
  have hdx : distance x = 1 := by rw [hx]; exact distance_normalize _ hs
  have hxx : dot3 x x = 1 := by rw [← distance_sq, hdx]; norm_num
  have hcx : cross3 x (sub3 b1 b3) ≠ zero3 := by
    rw [hx, normalize_eq_smul, cross3_smul_left]
    exact smul3_ne_zero _ _ (inv_ne_zero (distance_pos _ hs).ne') hnc
  have hdz : distance z = 1 := by rw [hz]; exact distance_normalize _ hcx
  have hzz : dot3 z z = 1 := by rw [← distance_sq, hdz]; norm_num
  have hxz : dot3 x z = 0 := by
    rw [hz, normalize_eq_smul, dot3_smul_right, dot3_cross3_self_left, mul_zero]
  have hczx : dot3 (cross3 z x) (cross3 z x) = 1 := by
    rw [cross3_lagrange, hzz, hxx, dot3_comm z x, hxz]
    norm_num
  have hczx0 : cross3 z x ≠ zero3 := by
    intro h
    rw [h] at hczx
    rw [(dot3_self_eq_zero_iff zero3).mpr rfl] at hczx
    norm_num at hczx
  have hdy : distance y = 1 := by rw [hy]; exact distance_normalize _ hczx0
  have hdczx : distance (cross3 z x) = 1 := by
    unfold distance
    rw [hczx, Real.sqrt_one]
  have hy2 : y = cross3 z x := by
    rw [hy, normalize_eq_smul, hdczx]
    apply Vec3.ext3 <;> simp [smul3]
  have hxy : dot3 x y = 0 := by rw [hy2]; exact dot3_cross3_self_sandwich x z
  have hyz : dot3 y z = 0 := by
    rw [hy2, dot3_comm]
    exact dot3_cross3_self_left z x
  have hcross : cross3 x y = z := by
    rw [hy2, cross3_triple, hxx, hxz]
    apply Vec3.ext3 <;> simp [smul3, sub3]
  refine ⟨hx, hz, hy, hdx, hdy, hdz, ?_, ?_, ?_, hcross⟩
  · rw [hxy]; norm_num
  · rw [hxz]; norm_num
  · rw [hyz]; norm_num

/-- C5 witness: the triple `b1 = (0,1,0)`, `b2 = (1,0,0)`, `b3 = (0,0,0)`
gives the frame `x = (1,0,0)`, `y = (0,1,0)`, `z = (0,0,1)`. -/
theorem C5_witness :
    cross3 (sub3 ⟨1, 0, 0⟩ ⟨0, 0, 0⟩) (sub3 ⟨0, 1, 0⟩ ⟨0, 0, 0⟩) ≠ zero3 ∧
    get_orientation ⟨0, 1, 0⟩ ⟨1, 0, 0⟩ ⟨0, 0, 0⟩ =
      ((⟨1, 0, 0⟩ : Vec3), (⟨0, 1, 0⟩ : Vec3), (⟨0, 0, 1⟩ : Vec3)) ∧
    ((⟨1, 0, 0⟩ : Vec3) = normalize (sub3 ⟨1, 0, 0⟩ ⟨0, 0, 0⟩) ∧
     (⟨0, 0, 1⟩ : Vec3) = normalize (cross3 ⟨1, 0, 0⟩ (sub3 ⟨0, 1, 0⟩ ⟨0, 0, 0⟩)) ∧
     (⟨0, 1, 0⟩ : Vec3) = normalize (cross3 ⟨0, 0, 1⟩ ⟨1, 0, 0⟩) ∧
     distance ⟨1, 0, 0⟩ = 1 ∧ distance ⟨0, 1, 0⟩ = 1 ∧ distance ⟨0, 0, 1⟩ = 1 ∧
     |dot3 ⟨1, 0, 0⟩ ⟨0, 1, 0⟩| < 1 / 1000000000 ∧
     |dot3 ⟨1, 0, 0⟩ ⟨0, 0, 1⟩| < 1 / 1000000000 ∧
     |dot3 ⟨0, 1, 0⟩ ⟨0, 0, 1⟩| < 1 / 1000000000 ∧
     cross3 ⟨1, 0, 0⟩ ⟨0, 1, 0⟩ = ⟨0, 0, 1⟩) := by
  have hnc : cross3 (sub3 (⟨1, 0, 0⟩ : Vec3) ⟨0, 0, 0⟩)
      (sub3 (⟨0, 1, 0⟩ : Vec3) ⟨0, 0, 0⟩) ≠ zero3 := by
    intro h
    have := congrArg Vec3.z h
    simp [cross3, sub3, zero3] at this
  have ho : get_orientation ⟨0, 1, 0⟩ ⟨1, 0, 0⟩ ⟨0, 0, 0⟩ =
      ((⟨1, 0, 0⟩ : Vec3), (⟨0, 1, 0⟩ : Vec3), (⟨0, 0, 1⟩ : Vec3)) := by
    simp only [get_orientation, sub3, cross3, normalize, distance, dot3]
    norm_num [Real.sqrt_one]
  exact ⟨hnc, ho, C5_get_orientation_orthonormal _ _ _ _ _ _ hnc ho⟩

/-! Claim C2: piecewise behaviour of `median_line_smoothing`. -/

/-- C2 (amended): for window size `k ≥ 1` the empty path maps to `[]`; a
non-empty path with `len ≤ k` maps to the single componentwise median of
the whole path; and a path with `len > k` maps to a list of length
`len - k` (not `len - k + 1` as claimed) whose `i`-th element is the
componentwise median of `path[i .. i+k)`. -/
theorem C2_median_line_smoothing_cases (path : List (ℚ × ℚ)) (k : ℕ)
    (hk : 1 ≤ k) :
    (path = [] → median_line_smoothing path k = []) ∧
    (path ≠ [] → path.length ≤ k →
      median_line_smoothing path k = [npMedianPoint path]) ∧
    (k < path.length →
      (median_line_smoothing path k).length = path.length - k ∧
      ∀ i, i < path.length - k →
        (median_line_smoothing path k).getD i (0, 0) =
          npMedianPoint ((path.drop i).take k)) := by
  refine ⟨?_, ?_, ?_⟩
  · intro h
    subst h
    simp [median_line_smoothing]
  · intro h1 h2
    unfold median_line_smoothing
    rw [if_neg (by simpa [List.length_eq_zero] using h1), if_pos h2]
  · intro h
    unfold median_line_smoothing
    rw [if_neg (by omega : ¬path.length = 0), if_neg (not_le.mpr h)]
    constructor
    · simp
    · intro i hi
      simp [List.getD_eq_getElem?_getD, List.getElem?_map, List.getElem?_range, hi]

/-- C2 counterexample to the claimed output length: with `k = 1` and a
path of two points the code produces one window median
(`range (len - k)`), not `len - k + 1 = 2` medians. -/
theorem C2_length_counterexample :
    (median_line_smoothing [((0:ℚ), 0), (1, 1)] 1).length ≠ 2 - 1 + 1 := by
  norm_num [median_line_smoothing]

/-- C2 witness: the path `[(0,0), (2,2), (4,4)]` with `k = 2` yields the
single window median `(1, 1)`. -/
theorem C2_witness :
    (1 ≤ 2 ∧
      (median_line_smoothing [((0:ℚ), 0), (2, 2), (4, 4)] 2).length = 3 - 2) ∧
    (median_line_smoothing [((0:ℚ), 0), (2, 2), (4, 4)] 2).getD 0 (0, 0) =
      npMedianPoint (([((0:ℚ), 0), (2, 2), (4, 4)].drop 0).take 2) := by
  have T := C2_median_line_smoothing_cases [((0:ℚ), 0), (2, 2), (4, 4)] 2
    (by norm_num)
  have h3 : 2 < ([((0:ℚ), 0), (2, 2), (4, 4)]).length := by norm_num
  exact ⟨⟨by norm_num, (T.2.2 h3).1⟩, (T.2.2 h3).2 0 (by norm_num)⟩

/-! Claim C3: segmentation postcondition of `threshold`. -/

/-- C3 (amended): for intensities 0–255, `saturationThreshold ∈ (0,1]`,
`lightnessThreshold ∈ [0,255]`, and when the per-pixel threshold
`max (mean * (1/saturationThreshold)) lightnessThreshold` is below `256`
(so that the cast to the `uint8` frame dtype does not wrap), channel `c`
is on at a pixel iff its value strictly exceeds that threshold. -/
theorem C3_threshold_iff (frame : ℕ → ℕ → Fin 3 → ℕ) (sat L : ℚ)
    (i j : ℕ) (c : Fin 3)
    (hpix : ∀ d, frame i j d ≤ 255)
    (hs0 : 0 < sat) (hs1 : sat ≤ 1) (hL0 : 0 ≤ L) (hL1 : L ≤ 255)
    (hov : max (pixel_mean (frame i j) * (1 / sat)) L < 256) :
    (threshold frame (1 / sat) L i j c = true ↔
      (frame i j c : ℚ) > max (pixel_mean (frame i j) * (1 / sat)) L) := by
  set t := max (pixel_mean (frame i j) * (1 / sat)) L with ht
  have ht0 : 0 ≤ t := le_trans hL0 (le_max_right _ _)
  have hfl0 : 0 ≤ ⌊t⌋ := Int.floor_nonneg.mpr ht0
  have hfl256 : ⌊t⌋ < 256 := by
    rw [Int.floor_lt]
    exact_mod_cast hov
  simp only [threshold, cast_u8, decide_eq_true_eq, ← ht]
  rw [Int.emod_eq_of_lt hfl0 hfl256, gt_iff_lt, gt_iff_lt, Int.floor_lt]
  constructor
  · intro h
    exact_mod_cast h
  · intro h
    exact_mod_cast h

/-- C3 counterexample to the claim as stated: at a pure-white pixel
`(255,255,255)` with `saturationThreshold = 1/2` and
`lightnessThreshold = 0`, the exact threshold is `510`, so the claimed
predicate `255 > 510` is false, yet the cast to `uint8` wraps `510` to
`254` and the code turns the channel on. -/
theorem C3_cast_overflow_counterexample :
    ((0:ℚ) < 1 / 2 ∧ (1 / 2 : ℚ) ≤ 1 ∧ (0:ℚ) ≤ 0 ∧ (0:ℚ) ≤ 255 ∧
      (∀ d : Fin 3, (fun (_ : Fin 3) => 255) d ≤ 255)) ∧
    threshold (fun _ _ _ => 255) (1 / (1 / 2)) 0 0 0 0 = true ∧
    ¬((255:ℚ) > max (pixel_mean (fun _ => 255) * (1 / (1 / 2))) 0) := by
  refine ⟨⟨by norm_num, by norm_num, le_refl _, by norm_num, fun d => le_refl _⟩, ?_, ?_⟩
  · norm_num [threshold, cast_u8, pixel_mean]
  · norm_num [pixel_mean]

/-- C3 witness: a pixel `(100,100,100)` with `saturationThreshold = 1`
and `lightnessThreshold = 90`; the threshold `max 100 90 = 100` does not
overflow and the equivalence applies. -/
theorem C3_witness :
    ((∀ d : Fin 3, (fun (_ : Fin 3) => 100) d ≤ 255) ∧ (0:ℚ) < 1 ∧ (1:ℚ) ≤ 1 ∧
      (0:ℚ) ≤ 90 ∧ (90:ℚ) ≤ 255 ∧
      max (pixel_mean (fun _ => 100) * (1 / 1)) 90 < 256) ∧
    (threshold (fun _ _ _ => 100) (1 / 1) 90 0 0 0 = true ↔
      (100:ℚ) > max (pixel_mean (fun _ => 100) * (1 / 1)) 90) := by
  have hov : max (pixel_mean (fun _ => 100) * (1 / 1)) 90 < (256:ℚ) := by
    norm_num [pixel_mean]
  refine ⟨⟨fun d => by norm_num, by norm_num, le_refl _, by norm_num, by norm_num, hov⟩, ?_⟩
  exact C3_threshold_iff (fun _ _ _ => 100) 1 90 0 0 0
    (fun d => by norm_num) (by norm_num) (le_refl _) (by norm_num) (by norm_num) hov

/-! Claim C8: the dominant-axis line filter. -/

theorem zipWith_map_self {α β γ : Type} (g : β → α → γ) (f : α → β) (l : List α) :
    List.zipWith g (l.map f) l = l.map (fun a => g (f a) a) := by
  induction l with
  | nil => rfl
  | cons a l ih => simp [ih]

theorem select_cons_true {α : Type} (a : α) (l : List α) (m : List Bool) :
    select (a :: l) (true :: m) = a :: select l m := by
  simp [select, List.filterMap_cons]

theorem select_cons_false {α : Type} (a : α) (l : List α) (m : List Bool) :
    select (a :: l) (false :: m) = select l m := by
  simp [select, List.filterMap_cons]

theorem select_map_mem {α : Type} (l : List α) (tf : α → Bool) (q : α) :
    q ∈ select l (l.map tf) ↔ q ∈ l ∧ tf q = true := by
  induction l with
  | nil => simp [select]
  | cons a l ih =>
    cases h : tf a with
    | true =>
      rw [List.map_cons, h, select_cons_true]
      simp only [List.mem_cons, ih]
      constructor
      · rintro (rfl | ⟨hq, ht⟩)
        · exact ⟨Or.inl rfl, h⟩
        · exact ⟨Or.inr hq, ht⟩
      · rintro ⟨rfl | hq, ht⟩
        · exact Or.inl rfl
        · exact Or.inr ⟨hq, ht⟩
    | false =>
      rw [List.map_cons, h, select_cons_false]
      simp only [List.mem_cons, ih]
      constructor
      · rintro ⟨hq, ht⟩
        exact ⟨Or.inr hq, ht⟩
      · rintro ⟨rfl | hq, ht⟩
        · rw [h] at ht; cases ht
        · exact ⟨hq, ht⟩

/-- C8 (amended): `filter_line` parameterises the line along the `x` axis
when `Δy ≤ Δx` (a signed comparison) and along the `y` axis otherwise.
For distinct `p1 ≠ p2`, whenever the chosen denominator is nonzero —
that is, except when `Δx = 0 ∧ Δy < 0` or `Δy = 0 ∧ Δx < 0`, where the
code does divide by zero — it keeps exactly the pixels whose rounded
projection onto the line along the chosen axis matches their actual
coordinate. -/
theorem C8_filter_line_dominant_axis (p1 p2 : ℚ × ℚ) (px : List (ℤ × ℤ))
    (hne : p1 ≠ p2)
    (hx0 : ¬(p2.1 - p1.1 = 0 ∧ p2.2 - p1.2 < 0))
    (hy0 : ¬(p2.2 - p1.2 = 0 ∧ p2.1 - p1.1 < 0)) :
    filter_line_denom p1 p2 ≠ 0 ∧
    ∀ q : ℤ × ℤ, q ∈ filter_line p1 p2 px ↔ q ∈ px ∧
      (if p2.2 - p1.2 ≤ p2.1 - p1.1
       then roundHE (p1.2 + (p2.2 - p1.2) / (p2.1 - p1.1) * ((q.1 : ℚ) - p1.1)) = q.2
       else roundHE (p1.1 + (p2.1 - p1.1) / (p2.2 - p1.2) * ((q.2 : ℚ) - p1.2)) = q.1) := by
  have hnz : ¬(p2.1 - p1.1 = 0 ∧ p2.2 - p1.2 = 0) := by
    rintro ⟨h1, h2⟩
    exact hne (Prod.ext_iff.mpr ⟨by linarith, by linarith⟩)
  constructor
  · unfold filter_line_denom
    simp only [if_neg hnz]
    split_ifs with hle
    · intro h0
      have hdy : p2.2 - p1.2 ≤ 0 := by rw [h0] at hle; exact hle
      rcases lt_or_eq_of_le hdy with hlt | heq
      · exact hx0 ⟨h0, hlt⟩
      · exact hnz ⟨h0, heq⟩
    · intro h0
      exact hy0 ⟨h0, by rw [← h0]; exact lt_of_not_le hle⟩
  · intro q
    unfold filter_line
    simp only [if_neg hnz]
    split_ifs with hle
    · rw [zipWith_map_self
        (fun yv (q : ℤ × ℤ) => decide (roundHE yv = q.2))
        (fun q : ℤ × ℤ => p1.2 + (p2.2 - p1.2) / (p2.1 - p1.1) * ((q.1 : ℚ) - p1.1)) px]
      rw [select_map_mem]
      simp
    · rw [zipWith_map_self
        (fun xv (q : ℤ × ℤ) => decide (roundHE xv = q.1))
        (fun q : ℤ × ℤ => p1.1 + (p2.1 - p1.1) / (p2.2 - p1.2) * ((q.2 : ℚ) - p1.2)) px]
      rw [select_map_mem]
      simp

/-- C8 counterexample to the claimed division safety: the distinct points
`p1 = (0,0)`, `p2 = (0,-1)` satisfy `Δy = -1 ≤ 0 = Δx`, so the code
picks `slope = Δy / Δx` whose denominator `Δx` is zero. -/
theorem C8_zero_denominator_counterexample :
    ((0:ℚ), (0:ℚ)) ≠ ((0:ℚ), (-1:ℚ)) ∧
    filter_line_denom ((0:ℚ), (0:ℚ)) ((0:ℚ), (-1:ℚ)) = 0 := by
  constructor
  · intro h
    rw [Prod.ext_iff] at h
    norm_num at h
  · norm_num [filter_line_denom]

/-- C8 witness: `p1 = (0,0)`, `p2 = (2,1)` (so the `x` axis dominates and
the denominator is `2`), applied to the pixel `(4,2)`, which lies on the
line and is kept. -/
theorem C8_witness :
    (((0:ℚ), (0:ℚ)) ≠ ((2:ℚ), (1:ℚ)) ∧
      ¬(((2:ℚ), (1:ℚ)).1 - ((0:ℚ), (0:ℚ)).1 = 0 ∧
        ((2:ℚ), (1:ℚ)).2 - ((0:ℚ), (0:ℚ)).2 < 0) ∧
      ¬(((2:ℚ), (1:ℚ)).2 - ((0:ℚ), (0:ℚ)).2 = 0 ∧
        ((2:ℚ), (1:ℚ)).1 - ((0:ℚ), (0:ℚ)).1 < 0)) ∧
    filter_line_denom ((0:ℚ), (0:ℚ)) ((2:ℚ), (1:ℚ)) ≠ 0 ∧
    (((4:ℤ), (2:ℤ)) ∈
        filter_line ((0:ℚ), (0:ℚ)) ((2:ℚ), (1:ℚ)) [((4:ℤ), (2:ℤ))] ↔
      ((4:ℤ), (2:ℤ)) ∈ [((4:ℤ), (2:ℤ))] ∧
      (if ((2:ℚ), (1:ℚ)).2 - ((0:ℚ), (0:ℚ)).2 ≤
          ((2:ℚ), (1:ℚ)).1 - ((0:ℚ), (0:ℚ)).1
       then roundHE (((0:ℚ), (0:ℚ)).2 +
          (((2:ℚ), (1:ℚ)).2 - ((0:ℚ), (0:ℚ)).2) /
            (((2:ℚ), (1:ℚ)).1 - ((0:ℚ), (0:ℚ)).1) *
            ((((4:ℤ), (2:ℤ)).1 : ℚ) - ((0:ℚ), (0:ℚ)).1)) = ((4:ℤ), (2:ℤ)).2
       else roundHE (((0:ℚ), (0:ℚ)).1 +
          (((2:ℚ), (1:ℚ)).1 - ((0:ℚ), (0:ℚ)).1) /
            (((2:ℚ), (1:ℚ)).2 - ((0:ℚ), (0:ℚ)).2) *
            ((((4:ℤ), (2:ℤ)).2 : ℚ) - ((0:ℚ), (0:ℚ)).2)) = ((4:ℤ), (2:ℤ)).1)) := by
  have hne : ((0:ℚ), (0:ℚ)) ≠ ((2:ℚ), (1:ℚ)) := by
    intro h
    rw [Prod.ext_iff] at h
    norm_num at h
  have hx0 : ¬(((2:ℚ), (1:ℚ)).1 - ((0:ℚ), (0:ℚ)).1 = 0 ∧
      ((2:ℚ), (1:ℚ)).2 - ((0:ℚ), (0:ℚ)).2 < 0) := by norm_num
  have hy0 : ¬(((2:ℚ), (1:ℚ)).2 - ((0:ℚ), (0:ℚ)).2 = 0 ∧
      ((2:ℚ), (1:ℚ)).1 - ((0:ℚ), (0:ℚ)).1 < 0) := by norm_num
  have T := C8_filter_line_dominant_axis ((0:ℚ), (0:ℚ)) ((2:ℚ), (1:ℚ))
    [((4:ℤ), (2:ℤ))] hne hx0 hy0
  exact ⟨⟨hne, hx0, hy0⟩, T.1, T.2 ((4:ℤ), (2:ℤ))⟩

/-! Claim C9: memoization of the per-pixel lookup tables. -/

theorem updated_weighted_no_refresh (s : WeightedCaches) (w h : ℕ) (f : ℝ) :
    ¬((update_weighted_caches s w h f).pixel_area = none ∨
      (update_weighted_caches s w h f).pixel_area.map Prod.fst ≠ some (w, h) ∨
      (update_weighted_caches s w h f).f_cache ≠ some f) := by
  unfold update_weighted_caches
  by_cases hc : s.pixel_area = none ∨ s.pixel_area.map Prod.fst ≠ some (w, h) ∨
      s.f_cache ≠ some f
  · rw [if_pos hc]
    push_neg
    exact ⟨by simp [area_fraction_image], by simp [area_fraction_image], rfl⟩
  · rw [if_neg hc]
    push_neg at hc ⊢
    exact hc

theorem updated_distance_no_refresh (d : Option ((ℕ × ℕ) × ((ℕ × ℕ) → ℤ)))
    (w h : ℕ) :
    ¬(update_distance_cache d w h = none ∨
      (update_distance_cache d w h).map Prod.fst ≠ some (w, h)) := by
  unfold update_distance_cache
  by_cases hc : d = none ∨ d.map Prod.fst ≠ some (w, h)
  · rw [if_pos hc]
    push_neg
    exact ⟨by simp, by simp⟩
  · rw [if_neg hc]
    push_neg at hc ⊢
    exact hc

/-- C9: calling `get_all_balls_weighted` again with the same resolution
`(w, h)` and the same focal length `f` leaves the solid-angle weight
tables unchanged, and calling `get_tangential_points` again with the same
resolution leaves the distance-from-principal-point table unchanged: the
refresh conditions depend only on resolution and focal length, not on the
frame content, so a second update with the same parameters is the
identity. -/
theorem C9_lookup_tables_memoized (s : WeightedCaches)
    (d : Option ((ℕ × ℕ) × ((ℕ × ℕ) → ℤ))) (w h : ℕ) (f : ℝ) :
    update_weighted_caches (update_weighted_caches s w h f) w h f =
      update_weighted_caches s w h f ∧
    update_distance_cache (update_distance_cache d w h) w h =
      update_distance_cache d w h := by
  constructor
  · have hno := updated_weighted_no_refresh s w h f
    set S : WeightedCaches := update_weighted_caches s w h f with hS
    show update_weighted_caches S w h f = S
    unfold update_weighted_caches
    rw [if_neg hno]
  · have hno := updated_distance_no_refresh d w h
    set D : Option ((ℕ × ℕ) × ((ℕ × ℕ) → ℤ)) := update_distance_cache d w h
      with hD
    show update_distance_cache D w h = D
    unfold update_distance_cache
    rw [if_neg hno]

/-! Claim C4: behaviour of the per-frame step on degenerate frames. -/

theorem np_average_error (vals ws : List ℝ) (e : PyErr)
    (h : np_average vals ws = .error e) : e = .zeroDivisionError := by
  unfold np_average at h
  split_ifs at h
  cases h
  rfl

theorem np_average_empty : np_average [] [] = .error .zeroDivisionError := by
  unfold np_average
  rw [if_pos List.sum_nil]

theorem measure_ball_empty (m : Mask) (f : ℝ) (c : Fin 3)
    (h : onPixels m c = []) :
    measure_ball m f c = .error .zeroDivisionError := by
  unfold measure_ball ball_weights
  rw [h]
  simp only [List.map_nil]
  rw [np_average_empty]

theorem measure_ball_error (m : Mask) (f : ℝ) (c : Fin 3) (e : PyErr)
    (h : measure_ball m f c = .error e) : e = .zeroDivisionError := by
  unfold measure_ball at h
  rcases h1 : np_average ((onPixels m c).map (fun q => (q.1 : ℝ)))
      (ball_weights m f c) with e1 | v1
  · rw [h1] at h
    simp only [Except.error.injEq] at h
    subst h
    exact np_average_error _ _ _ h1
  · rw [h1] at h
    rcases h2 : np_average ((onPixels m c).map (fun q => (q.2 : ℝ)))
        (ball_weights m f c) with e2 | v2
    · rw [h2] at h
      simp only [Except.error.injEq] at h
      subst h
      exact np_average_error _ _ _ h2
    · rw [h2] at h
      simp at h

theorem get_all_balls_weighted_error (m : Mask) (f : ℝ) (c : Fin 3)
    (hc : onPixels m c = []) :
    get_all_balls_weighted m f = .error .zeroDivisionError := by
  have hcerr : measure_ball m f c = .error .zeroDivisionError :=
    measure_ball_empty m f c hc
  unfold get_all_balls_weighted
  rcases h0 : measure_ball m f 0 with e0 | b0
  · have he0 := measure_ball_error m f 0 e0 h0
    subst he0
    rfl
  · rcases h1 : measure_ball m f 1 with e1 | b1
    · have he1 := measure_ball_error m f 1 e1 h1
      subst he1
      rfl
    · rcases h2 : measure_ball m f 2 with e2 | b2
      · have he2 := measure_ball_error m f 2 e2 h2
        subst he2
        rfl
      · exfalso
        have hcc : c = 0 ∨ c = 1 ∨ c = 2 := by
          rcases c with ⟨v, hv⟩
          interval_cases v
          · exact Or.inl (Fin.ext rfl)
          · exact Or.inr (Or.inl (Fin.ext rfl))
          · exact Or.inr (Or.inr (Fin.ext rfl))
        rcases hcc with rfl | rfl | rfl
        · rw [hcerr] at h0
          cases h0
        · rw [hcerr] at h1
          cases h1
        · rw [hcerr] at h2
          cases h2

/-- C4 (amended): in the default configuration there is no recoverable
`FrameSkipped` outcome.  For every frame in which some marker channel has
zero on-pixels and the pen is down, `np.average` inside
`get_all_balls_weighted` raises `ZeroDivisionError`; the main loop has no
handler for it (only `StopIteration` is caught), so the per-frame step
surfaces the error and the whole run aborts — pose computation does not
complete and no sample is appended, but not as a per-frame skip.  With the
pen up the step always succeeds, and segment closing is driven by
pen-state alone, unaffected by the degenerate mask. -/
theorem C4_zero_pixels_unhandled_error (m : Mask) (f : ℝ)
    (paths : List (List (ℝ × ℝ))) (c : Fin 3) (hc : onPixels m c = []) :
    get_all_balls_weighted m f = .error .zeroDivisionError ∧
    step_computing true m f paths = .error .zeroDivisionError ∧
    (∃ st, step_computing false m f paths = .ok st) := by
  have hG := get_all_balls_weighted_error m f c hc
  refine ⟨hG, ?_, ?_⟩
  · unfold step_computing
    rw [if_pos rfl, hG]
  · unfold step_computing
    rw [if_neg (by simp : ¬false = true)]
    by_cases hlen : 0 < (paths.getLastD []).length
    · rw [if_pos hlen]
      exact ⟨_, rfl⟩
    · rw [if_neg hlen]
      exact ⟨_, rfl⟩

/-- C4 counterexample to the claim as stated: a 1×1 frame whose mask is
all-off has zero on-pixels for marker 0, yet with the pen down the step
does not produce a recoverable skipped-frame outcome (`Except.ok` with the
path state untouched): it raises an unhandled `ZeroDivisionError`. -/
theorem C4_no_frame_skip_counterexample :
    onPixels [[fun _ => false]] 0 = [] ∧
    step_computing true [[fun _ => false]] 1 [[]] = .error .zeroDivisionError ∧
    ∀ st, step_computing true [[fun _ => false]] 1 [[]] ≠ .ok st := by
  have h0 : onPixels ([[fun _ => false]] : Mask) 0 = [] := rfl
  have hG := get_all_balls_weighted_error [[fun _ => false]] 1 0 h0
  have hstep : step_computing true [[fun _ => false]] 1 [[]] =
      .error .zeroDivisionError := by
    unfold step_computing
    rw [if_pos rfl, hG]
  refine ⟨h0, hstep, ?_⟩
  intro st h
  rw [hstep] at h
  cases h

/-- C4 witness: a 1×1 frame in which only channel 1 is on, so channel 0
has zero on-pixels. -/
theorem C4_witness :
    onPixels [[fun c => decide (c = 1)]] 0 = [] ∧
    (get_all_balls_weighted [[fun c => decide (c = 1)]] 1 =
      .error .zeroDivisionError ∧
    step_computing true [[fun c => decide (c = 1)]] 1 [[(5, 5)]] =
      .error .zeroDivisionError ∧
    (∃ st, step_computing false [[fun c => decide (c = 1)]] 1 [[(5, 5)]] =
      .ok st)) := by
  have h0 : onPixels ([[fun c => decide (c = 1)]] : Mask) 0 = [] := rfl
  exact ⟨h0, C4_zero_pixels_unhandled_error [[fun c => decide (c = 1)]] 1
    [[(5, 5)]] 0 h0⟩

/-! Claim C1: trilateration round trip. -/

theorem distance_smul_nonneg (c : ℝ) (v : Vec3) (hc : 0 ≤ c) :
    distance (smul3 c v) = c * distance v := by
  unfold distance
  have hdot : dot3 (smul3 c v) (smul3 c v) = c ^ 2 * dot3 v v := by
    unfold dot3 smul3
    simp
    ring
  rw [hdot, Real.sqrt_mul (sq_nonneg c), Real.sqrt_sq hc]

theorem normalize_smul_pos (c : ℝ) (v : Vec3) (hc : 0 < c) :
    normalize (smul3 c v) = normalize v := by
  unfold normalize
  rw [distance_smul_nonneg c v hc.le]
  apply Vec3.ext3 <;> (simp [smul3]; rw [mul_div_mul_left _ _ hc.ne'])

/-- Casting a ray to the pinhole projection of a point in front of the
camera recovers the normalized direction of the point itself. -/
theorem ray_of_project (P : Vec3) (f w h : ℝ) (hf : 0 < f) (hz : P.z < 0) :
    get_ray (project P f w h) w h f = normalize P := by
  unfold get_ray project
  have hzne : P.z ≠ 0 := ne_of_lt hz
  have hv : (⟨(w / 2 - f * P.x / P.z) - w / 2, -((h / 2 + f * P.y / P.z) - h / 2), -f⟩ : Vec3)
      = smul3 (-f / P.z) P := by
    apply Vec3.ext3 <;> simp [smul3] <;> field_simp <;> ring
  rw [hv]
  exact normalize_smul_pos _ _ (div_pos_of_neg_of_neg (neg_neg_of_pos hf) hz)

theorem dot3_sub_sub (a b : Vec3) :
    dot3 (sub3 a b) (sub3 a b) = dot3 a a - 2 * dot3 a b + dot3 b b := by
  unfold dot3 sub3
  simp
  ring

/-- Exactness of `compute_ts` for three points equidistant from the
pinhole: with `dot Pi Pi = d^2` and all pairwise squared distances `s^2`,
all `u`-values are `s^2 / (2 d^2)` and the formula returns `(d, d, d)`. -/
theorem compute_ts_equidistant (P1 P2 P3 : Vec3) (d s : ℝ)
    (hd : 0 < d) (hs : 0 < s)
    (h1 : dot3 P1 P1 = d ^ 2) (h2 : dot3 P2 P2 = d ^ 2) (h3 : dot3 P3 P3 = d ^ 2)
    (h12 : dot3 (sub3 P1 P2) (sub3 P1 P2) = s ^ 2)
    (h23 : dot3 (sub3 P2 P3) (sub3 P2 P3) = s ^ 2)
    (h13 : dot3 (sub3 P1 P3) (sub3 P1 P3) = s ^ 2) :
    compute_ts (normalize P1) (normalize P2) (normalize P3) s = (d, d, d) := by
  have hdist1 : distance P1 = d := by
    unfold distance
    rw [h1, Real.sqrt_sq hd.le]
  have hdist2 : distance P2 = d := by
    unfold distance
    rw [h2, Real.sqrt_sq hd.le]
  have hdist3 : distance P3 = d := by
    unfold distance
    rw [h3, Real.sqrt_sq hd.le]
  have hd12 : dot3 P1 P2 = d ^ 2 - s ^ 2 / 2 := by
    have hexp := dot3_sub_sub P1 P2
    rw [h12, h1, h2] at hexp
    linarith
  have hd23 : dot3 P2 P3 = d ^ 2 - s ^ 2 / 2 := by
    have hexp := dot3_sub_sub P2 P3
    rw [h23, h2, h3] at hexp
    linarith
  have hd13 : dot3 P1 P3 = d ^ 2 - s ^ 2 / 2 := by
    have hexp := dot3_sub_sub P1 P3
    rw [h13, h1, h3] at hexp
    linarith
  have hc12 : dot3 (normalize P1) (normalize P2) = 1 - s ^ 2 / (2 * d ^ 2) := by
    rw [dot3_normalize_normalize, hdist1, hdist2, hd12]
    field_simp
    ring
  have hc23 : dot3 (normalize P2) (normalize P3) = 1 - s ^ 2 / (2 * d ^ 2) := by
    rw [dot3_normalize_normalize, hdist2, hdist3, hd23]
    field_simp
    ring
  have hc13 : dot3 (normalize P1) (normalize P3) = 1 - s ^ 2 / (2 * d ^ 2) := by
    rw [dot3_normalize_normalize, hdist1, hdist3, hd13]
    field_simp
    ring
  simp only [compute_ts]
  rw [hc12, hc23, hc13]
  have hu : (1 : ℝ) - (1 - s ^ 2 / (2 * d ^ 2)) = s ^ 2 / (2 * d ^ 2) := by ring
  rw [hu]
  have harg : 2 * (s ^ 2 / (2 * d ^ 2)) * (s ^ 2 / (2 * d ^ 2)) * (s ^ 2 / (2 * d ^ 2))
      = (s ^ 3 / (2 * d ^ 3)) ^ 2 := by
    field_simp
    ring
  rw [harg, Real.sqrt_sq (by positivity)]
  have ht : s * (s ^ 2 / (2 * d ^ 2)) / (s ^ 3 / (2 * d ^ 3)) = d := by
    field_simp
    ring
  rw [ht]

/-- C1 (amended): the round trip is exact when the three points of the
equilateral triangle are moreover equidistant from the camera origin (the
spec's "at known depth"): casting rays to the pinhole projections with
`get_rays` and running `compute_ts` with the same `side` recovers exactly
the original point distances.  (For non-equidistant placements the formula
is only an approximation; see the counterexample.) -/
theorem C1_trilateration_round_trip_equidistant (P1 P2 P3 : Vec3)
    (f w h side d : ℝ) (hf : 0 < f)
    (hz1 : P1.z < 0) (hz2 : P2.z < 0) (hz3 : P3.z < 0)
    (hd1 : distance P1 = d) (hd2 : distance P2 = d) (hd3 : distance P3 = d)
    (hs : 0 < side)
    (h12 : distance (sub3 P1 P2) = side) (h23 : distance (sub3 P2 P3) = side)
    (h13 : distance (sub3 P1 P3) = side) :
    compute_ts (get_ray (project P1 f w h) w h f)
        (get_ray (project P2 f w h) w h f)
        (get_ray (project P3 f w h) w h f) side =
      (distance P1, distance P2, distance P3) := by
  have hP1ne : P1 ≠ zero3 := by
    intro hP
    rw [hP] at hz1
    simp [zero3] at hz1
  have hdpos : 0 < d := hd1 ▸ distance_pos P1 hP1ne
  rw [ray_of_project P1 f w h hf hz1, ray_of_project P2 f w h hf hz2,
    ray_of_project P3 f w h hf hz3, hd1, hd2, hd3]
  refine compute_ts_equidistant P1 P2 P3 d side hdpos hs ?_ ?_ ?_ ?_ ?_ ?_
  · rw [← distance_sq, hd1]
  · rw [← distance_sq, hd2]
  · rw [← distance_sq, hd3]
  · rw [← distance_sq, h12]
  · rw [← distance_sq, h23]
  · rw [← distance_sq, h13]

/-- C1 witness: the cyclic triple `(-1,-2,-3)`, `(-2,-3,-1)`, `(-3,-1,-2)`
is an equilateral triangle of side `sqrt 6` whose vertices are all at
distance `sqrt 14` from the origin and in front of the camera. -/
theorem C1_witness :
    ((0:ℝ) < 1 ∧ ((⟨-1, -2, -3⟩ : Vec3)).z < 0 ∧ ((⟨-2, -3, -1⟩ : Vec3)).z < 0 ∧
      ((⟨-3, -1, -2⟩ : Vec3)).z < 0 ∧
      distance ⟨-1, -2, -3⟩ = Real.sqrt 14 ∧
      distance ⟨-2, -3, -1⟩ = Real.sqrt 14 ∧
      distance ⟨-3, -1, -2⟩ = Real.sqrt 14 ∧
      (0:ℝ) < Real.sqrt 6 ∧
      distance (sub3 ⟨-1, -2, -3⟩ ⟨-2, -3, -1⟩) = Real.sqrt 6 ∧
      distance (sub3 ⟨-2, -3, -1⟩ ⟨-3, -1, -2⟩) = Real.sqrt 6 ∧
      distance (sub3 ⟨-1, -2, -3⟩ ⟨-3, -1, -2⟩) = Real.sqrt 6) ∧
    compute_ts (get_ray (project ⟨-1, -2, -3⟩ 1 2 2) 2 2 1)
        (get_ray (project ⟨-2, -3, -1⟩ 1 2 2) 2 2 1)
        (get_ray (project ⟨-3, -1, -2⟩ 1 2 2) 2 2 1) (Real.sqrt 6) =
      (distance ⟨-1, -2, -3⟩, distance ⟨-2, -3, -1⟩, distance ⟨-3, -1, -2⟩) := by
  have hz1 : ((⟨-1, -2, -3⟩ : Vec3)).z < 0 := by norm_num
  have hz2 : ((⟨-2, -3, -1⟩ : Vec3)).z < 0 := by norm_num
  have hz3 : ((⟨-3, -1, -2⟩ : Vec3)).z < 0 := by norm_num
  have hd1 : distance (⟨-1, -2, -3⟩ : Vec3) = Real.sqrt 14 := by
    unfold distance dot3
    norm_num
  have hd2 : distance (⟨-2, -3, -1⟩ : Vec3) = Real.sqrt 14 := by
    unfold distance dot3
    norm_num
  have hd3 : distance (⟨-3, -1, -2⟩ : Vec3) = Real.sqrt 14 := by
    unfold distance dot3
    norm_num
  have hs : (0:ℝ) < Real.sqrt 6 := Real.sqrt_pos.mpr (by norm_num)
  have h12 : distance (sub3 ⟨-1, -2, -3⟩ ⟨-2, -3, -1⟩) = Real.sqrt 6 := by
    unfold distance dot3 sub3
    norm_num
  have h23 : distance (sub3 ⟨-2, -3, -1⟩ ⟨-3, -1, -2⟩) = Real.sqrt 6 := by
    unfold distance dot3 sub3
    norm_num
  have h13 : distance (sub3 ⟨-1, -2, -3⟩ ⟨-3, -1, -2⟩) = Real.sqrt 6 := by
    unfold distance dot3 sub3
    norm_num
  exact ⟨⟨by norm_num, hz1, hz2, hz3, hd1, hd2, hd3, hs, h12, h23, h13⟩,
    C1_trilateration_round_trip_equidistant ⟨-1, -2, -3⟩ ⟨-2, -3, -1⟩
      ⟨-3, -1, -2⟩ 1 2 2 (Real.sqrt 6) (Real.sqrt 14) (by norm_num)
      hz1 hz2 hz3 hd1 hd2 hd3 hs h12 h23 h13⟩

/-- C1 counterexample to the claim as stated: the equilateral triangle
`(1,0,-5)`, `(0,1,-5)`, `(0,0,-4)` of side `sqrt 2` lies at positive
depths with a strictly positive trilateration discriminant, yet the third
recovered scale factor `1 / (sqrt 26 - 5) ≈ 10.1` misses the true
distance `4` by far more than `1e-6` relative error. -/
theorem C1_round_trip_counterexample :
    (distance (sub3 ⟨1, 0, -5⟩ ⟨0, 1, -5⟩) = Real.sqrt 2 ∧
     distance (sub3 ⟨0, 1, -5⟩ ⟨0, 0, -4⟩) = Real.sqrt 2 ∧
     distance (sub3 ⟨1, 0, -5⟩ ⟨0, 0, -4⟩) = Real.sqrt 2) ∧
    (((⟨1, 0, -5⟩ : Vec3)).z < 0 ∧ ((⟨0, 1, -5⟩ : Vec3)).z < 0 ∧
      ((⟨0, 0, -4⟩ : Vec3)).z < 0) ∧
    (0:ℝ) < Real.sqrt 2 ∧ (0:ℝ) < 1 ∧
    0 < 2 * (1 - dot3 (get_ray (project ⟨1, 0, -5⟩ 1 2 2) 2 2 1)
          (get_ray (project ⟨0, 1, -5⟩ 1 2 2) 2 2 1)) *
        (1 - dot3 (get_ray (project ⟨0, 1, -5⟩ 1 2 2) 2 2 1)
          (get_ray (project ⟨0, 0, -4⟩ 1 2 2) 2 2 1)) *
        (1 - dot3 (get_ray (project ⟨1, 0, -5⟩ 1 2 2) 2 2 1)
          (get_ray (project ⟨0, 0, -4⟩ 1 2 2) 2 2 1)) ∧
    ¬(|(compute_ts (get_ray (project ⟨1, 0, -5⟩ 1 2 2) 2 2 1)
          (get_ray (project ⟨0, 1, -5⟩ 1 2 2) 2 2 1)
          (get_ray (project ⟨0, 0, -4⟩ 1 2 2) 2 2 1) (Real.sqrt 2)).2.2 -
        distance ⟨0, 0, -4⟩| ≤ 1 / 1000000 * distance ⟨0, 0, -4⟩) := by
  have h12 : distance (sub3 ⟨1, 0, -5⟩ ⟨0, 1, -5⟩) = Real.sqrt 2 := by
    unfold distance dot3 sub3
    norm_num
  have h23 : distance (sub3 ⟨0, 1, -5⟩ ⟨0, 0, -4⟩) = Real.sqrt 2 := by
    unfold distance dot3 sub3
    norm_num
  have h13 : distance (sub3 ⟨1, 0, -5⟩ ⟨0, 0, -4⟩) = Real.sqrt 2 := by
    unfold distance dot3 sub3
    norm_num
  have hs2 : (0:ℝ) < Real.sqrt 2 := Real.sqrt_pos.mpr (by norm_num)
  set a := Real.sqrt 26 with ha
  have ha2 : a * a = 26 := Real.mul_self_sqrt (by norm_num)
  have ha5 : 5 < a := by
    rw [ha]
    exact (Real.lt_sqrt (by norm_num)).mpr (by norm_num)
  have ha0 : (0:ℝ) < a := lt_trans (by norm_num) ha5
  have h51 : a < 51 / 10 := by
    rw [ha]
    exact (Real.sqrt_lt' (by norm_num)).mpr (by norm_num)
  have hb : (0:ℝ) < 1 - 5 / a := by
    rw [sub_pos, div_lt_one ha0]
    exact ha5
  have hr1 : get_ray (project ⟨1, 0, -5⟩ 1 2 2) 2 2 1 = normalize ⟨1, 0, -5⟩ :=
    ray_of_project _ _ _ _ (by norm_num) (by norm_num)
  have hr2 : get_ray (project ⟨0, 1, -5⟩ 1 2 2) 2 2 1 = normalize ⟨0, 1, -5⟩ :=
    ray_of_project _ _ _ _ (by norm_num) (by norm_num)
  have hr3 : get_ray (project ⟨0, 0, -4⟩ 1 2 2) 2 2 1 = normalize ⟨0, 0, -4⟩ :=
    ray_of_project _ _ _ _ (by norm_num) (by norm_num)
  have hdist1 : distance (⟨1, 0, -5⟩ : Vec3) = a := by
    rw [ha]
    unfold distance dot3
    norm_num
  have hdist2 : distance (⟨0, 1, -5⟩ : Vec3) = a := by
    rw [ha]
    unfold distance dot3
    norm_num
  have hdist3 : distance (⟨0, 0, -4⟩ : Vec3) = 4 := by
    unfold distance dot3
    rw [show ((0:ℝ) * 0 + 0 * 0 + -4 * -4) = 4 ^ 2 by norm_num,
      Real.sqrt_sq (by norm_num : (0:ℝ) ≤ 4)]
  have hc12 : dot3 (normalize ⟨1, 0, -5⟩) (normalize ⟨0, 1, -5⟩) = 25 / 26 := by
    rw [dot3_normalize_normalize, hdist1, hdist2, ha2]
    unfold dot3
    norm_num
  have hc23 : dot3 (normalize ⟨0, 1, -5⟩) (normalize ⟨0, 0, -4⟩) = 5 / a := by
    rw [dot3_normalize_normalize, hdist2, hdist3]
    unfold dot3
    rw [div_eq_div_iff (by positivity) ha0.ne']
    ring
  have hc13 : dot3 (normalize ⟨1, 0, -5⟩) (normalize ⟨0, 0, -4⟩) = 5 / a := by
    rw [dot3_normalize_normalize, hdist1, hdist3]
    unfold dot3
    rw [div_eq_div_iff (by positivity) ha0.ne']
    ring
  have h113 : Real.sqrt (1 / 13) = Real.sqrt 2 / a := by
    rw [ha, ← Real.sqrt_div (by norm_num : (0:ℝ) ≤ 2)]
    norm_num
  refine ⟨⟨h12, h23, h13⟩, ⟨by norm_num, by norm_num, by norm_num⟩, hs2,
    by norm_num, ?_, ?_⟩
  · rw [hr1, hr2, hr3, hc12, hc23, hc13]
    have hbb := mul_pos hb hb
    nlinarith [hb, hbb]
  · rw [hdist3]
    have harg : 2 * (1 - 25 / 26) * (1 - 5 / a) * (1 - 5 / a)
        = (1 - 5 / a) ^ 2 * (1 / 13) := by ring
    have hT : (compute_ts (get_ray (project ⟨1, 0, -5⟩ 1 2 2) 2 2 1)
          (get_ray (project ⟨0, 1, -5⟩ 1 2 2) 2 2 1)
          (get_ray (project ⟨0, 0, -4⟩ 1 2 2) 2 2 1) (Real.sqrt 2)).2.2
        = Real.sqrt 2 * (1 - 25 / 26) / ((1 - 5 / a) * (Real.sqrt 2 / a)) := by
      rw [hr1, hr2, hr3]
      simp only [compute_ts]
      rw [hc12, hc23, hc13, harg, Real.sqrt_mul (sq_nonneg _),
        Real.sqrt_sq hb.le, h113]
    rw [hT]
    have hb51 : 1 - 5 / a < 1 / 51 := by
      have h5a : 50 / 51 < 5 / a := by
        rw [div_lt_div_iff (by norm_num) ha0]
        nlinarith [h51]
      linarith
    have hroot : Real.sqrt 2 / a < Real.sqrt 2 / 5 :=
      div_lt_div_of_pos_left hs2 (by norm_num) ha5
    have hdenom_pos : 0 < (1 - 5 / a) * (Real.sqrt 2 / a) :=
      mul_pos hb (div_pos hs2 ha0)
    have hdenom_lt : (1 - 5 / a) * (Real.sqrt 2 / a) < Real.sqrt 2 / 255 := by
      calc (1 - 5 / a) * (Real.sqrt 2 / a)
          < (1 / 51) * (Real.sqrt 2 / 5) :=
            mul_lt_mul'' hb51 hroot hb.le (div_pos hs2 ha0).le
        _ = Real.sqrt 2 / 255 := by ring
    have hnum_pos : 0 < Real.sqrt 2 * (1 - 25 / 26) := by positivity
    have hlow : Real.sqrt 2 * (1 - 25 / 26) / (Real.sqrt 2 / 255)
        < Real.sqrt 2 * (1 - 25 / 26) / ((1 - 5 / a) * (Real.sqrt 2 / a)) :=
      div_lt_div_of_pos_left hnum_pos hdenom_pos hdenom_lt
    have heq : Real.sqrt 2 * (1 - 25 / 26) / (Real.sqrt 2 / 255) = 255 / 26 := by
      rw [show (1:ℝ) - 25 / 26 = 1 / 26 by norm_num]
      field_simp
      ring
    rw [heq] at hlow
    rw [not_le]
    have hX4 : 0 < Real.sqrt 2 * (1 - 25 / 26) / ((1 - 5 / a) * (Real.sqrt 2 / a)) - 4 := by
      linarith [hlow]
    rw [abs_of_pos hX4]
    linarith [hlow]

end Drawings
